import Mathlib

/-!
Verification development for the outline-extraction core of
extract_outline.py.  The classification engine (lines 7 to 199 of the
source) is embedded shallowly: text runs are records of a character
list, a rational font size, a bold flag and a page number; every
Python function of the core is translated to an executable Lean
definition with the same name.  The PDF parsing layer (fitz) and the
batch driver are outside the embedded core, exactly as in the spec:
the core consumes an already extracted run stream.
-/

/-- Whitespace test matching the character class of the re module's
pattern backslash-s (space, tab, newline, carriage return, vertical
tab, form feed) and of str.strip. -/
def isWs (c : Char) : Bool :=
  c == ' ' || c == '\t' || c == '\n' || c == '\r' || c == '\x0b' || c == '\x0c'

/-- Character list of a string literal. -/
def lchars (s : String) : List Char := s.toList

/-- Python str.strip: drop whitespace from both ends. -/
def stripWs (t : List Char) : List Char :=
  ((t.dropWhile isWs).reverse.dropWhile isWs).reverse

/-- Replacement of every maximal whitespace run by one space, the
effect of re.sub applied with the whitespace-run pattern and a single
space, as in the source function clean. -/
def collapse : List Char → List Char
  | [] => []
  | [c] => [if isWs c then ' ' else c]
  | c1 :: c2 :: cs =>
    if isWs c1 && isWs c2 then collapse (c2 :: cs)
    else (if isWs c1 then ' ' else c1) :: collapse (c2 :: cs)

/-- Source function clean: strip, then collapse whitespace runs. -/
def clean (t : List Char) : List Char := collapse (stripWs t)

/-- Python str.join with a single-space separator. -/
def joinSpace : List (List Char) → List Char
  | [] => []
  | [t] => t
  | t :: ts => t ++ ' ' :: joinSpace ts

/-- Python substring containment (the in operator on str). -/
def substr (needle : List Char) : List Char → Bool
  | [] => needle.isEmpty
  | c :: t => needle.isPrefixOf (c :: t) || substr needle t

/-- Python str.lower (ASCII letters). -/
def lowerL (t : List Char) : List Char := t.map Char.toLower

/-- Four consecutive decimal digits somewhere in the text, the
backslash-d-4 alternative of the contact-noise search. -/
def hasFourDigits : List Char → Bool
  | a :: b :: c :: d :: rest =>
    (a.isDigit && b.isDigit && c.isDigit && d.isDigit) || hasFourDigits (b :: c :: d :: rest)
  | _ => false

/-- Prose-signaling substrings of is_body_text, all lowercase. -/
def prose_phrases : List (List Char) :=
  [lchars "the purpose of this", lchars "will be expected to", lchars "must be received by",
   lchars "please note that", lchars "if you require", lchars "specifically,",
   lchars "given the", lchars "for example,", lchars "however,", lchars "although",
   lchars "in addition to"]

/-- Contact/date noise search of is_body_text on the lowercased text:
an at sign, four consecutive digits, or one of the words phone, email,
fax, mail. -/
def contactNoise (low : List Char) : Bool :=
  substr ['@'] low || hasFourDigits low || substr (lchars "phone") low ||
    substr (lchars "email") low || substr (lchars "fax") low || substr (lchars "mail") low

/-- Source function is_body_text: the stage-1 rejection filter. -/
def is_body_text (t : List Char) : Bool :=
  let text := stripWs t
  decide (100 < text.length) ||
  (text.getLast? == some '.' && decide (20 < text.length)) ||
  prose_phrases.any (fun p => substr p (lowerL text)) ||
  contactNoise (lowerL text) ||
  (text.head? == some '-' && decide (30 < text.length))

/-- Principle/service vocabulary of is_structural_heading. -/
def principle_patterns : List (List Char) :=
  [lchars "Equitable access", lchars "Shared decision-making", lchars "Shared governance",
   lchars "Shared funding", lchars "Local points", lchars "Access:",
   lchars "Guidance and Advice:", lchars "Training:", lchars "Provincial Purchasing",
   lchars "Technological Support:"]

/-- Anchored case-insensitive match of the pattern Appendix [A-C]: on
an already lowercased text. -/
def matchAppendix (low : List Char) : Bool :=
  (lchars "appendix ").isPrefixOf low &&
    (match low.drop 9 with
     | c :: d :: _ => (c == 'a' || c == 'b' || c == 'c') && d == ':'
     | _ => false)

/-- Lowercased roman-numeral character of the class [IVX] under the
case-insensitive flag. -/
def romanChar (c : Char) : Bool := c == 'i' || c == 'v' || c == 'x'

/-- After one roman character: consume further roman characters, then
require a colon. -/
def afterRoman : List Char → Bool
  | [] => false
  | c :: rest => if romanChar c then afterRoman rest else c == ':'

/-- Anchored case-insensitive match of Phase [IVX]+: on an already
lowercased text. -/
def matchPhaseRoman (low : List Char) : Bool :=
  (lchars "phase ").isPrefixOf low &&
    (match low.drop 6 with
     | c :: rest => romanChar c && afterRoman rest
     | [] => false)

/-- An ASCII uppercase letter, the class [A-Z]. -/
def upperAZ (c : Char) : Bool := decide ('A' ≤ c) && decide (c ≤ 'Z')

/-- Consume further whitespace, then require an uppercase letter. -/
def afterWsUpper : List Char → Bool
  | [] => false
  | c :: rest => if isWs c then afterWsUpper rest else upperAZ c

/-- At least one whitespace character, then an uppercase letter. -/
def wsThenUpper : List Char → Bool
  | [] => false
  | c :: rest => isWs c && afterWsUpper rest

/-- After at least one digit: consume further digits, then require a
period followed by whitespace and an uppercase letter. -/
def afterDigitsDot : List Char → Bool
  | [] => false
  | c :: rest => if c.isDigit then afterDigitsDot rest else c == '.' && wsThenUpper rest

/-- Anchored match of the numbered-section pattern: digits, a period,
whitespace, an uppercase letter. -/
def numberedSection (t : List Char) : Bool :=
  match t with
  | c :: rest => c.isDigit && afterDigitsDot rest
  | [] => false

/-- Source function is_structural_heading: the stage-2 acceptance
filter, each disjunct transcribed in source order. -/
def is_structural_heading (t : List Char) : Bool :=
  let text := stripWs t
  let low := lowerL text
  (low == lchars "summary" || low == lchars "background" ||
    low == lchars "timeline" || low == lchars "milestones") ||
  (matchAppendix low || matchPhaseRoman low || (lchars "the business plan").isPrefixOf low) ||
  ((lchars "approach and").isPrefixOf low || (lchars "evaluation and").isPrefixOf low) ||
  numberedSection text ||
  principle_patterns.any (fun p => substr p text) ||
  ((lchars "For each").isPrefixOf text && text.getLast? == some ':') ||
  (substr (lchars "Ontario") text && substr (lchars "Digital Library") text &&
    decide (15 < text.length)) ||
  (substr (lchars "Critical Component") text || substr (lchars "Road Map to Prosperity") text) ||
  (lchars "What could the ODL").isPrefixOf text

/-- Heading levels H1 to H4. -/
inductive Level
  | H1
  | H2
  | H3
  | H4
deriving DecidableEq, Repr

/-- Font profile: the three size tiers computed by analyze_fonts. -/
structure FontStats where
  large_size : ℚ
  medium_size : ℚ
  body_size : ℚ
deriving DecidableEq, Repr

/-- Vocabulary of the H3 rule of get_heading_level, transcribed from
the source (note the truncated terms Shared decision, Guidance,
Provincial and Technological). -/
def h3_vocab : List (List Char) :=
  [lchars "Equitable access", lchars "Shared decision", lchars "Shared governance",
   lchars "Shared funding", lchars "Local points", lchars "Access:", lchars "Guidance",
   lchars "Training:", lchars "Provincial", lchars "Technological", lchars "What could"]

/-- After at least one digit: consume further digits, then require a
period (nothing else). -/
def afterDigitsDotOnly : List Char → Bool
  | [] => false
  | c :: rest => if c.isDigit then afterDigitsDotOnly rest else c == '.'

/-- Anchored match of digits followed by a period, the pattern used by
the H3 rule of get_heading_level. -/
def numberedDot (t : List Char) : Bool :=
  match t with
  | c :: rest => c.isDigit && afterDigitsDotOnly rest
  | [] => false

/-- Source function get_heading_level: the stage-3 level assignment. -/
def get_heading_level (t : List Char) (size : ℚ) (font_stats : FontStats) : Option Level :=
  let text := stripWs t
  if decide (font_stats.large_size ≤ size) &&
      (substr (lchars "Digital Library") text || substr (lchars "Critical Component") text) then
    some Level.H1
  else if text == lchars "Summary" || text == lchars "Background" ||
      (lchars "The Business Plan").isPrefixOf text ||
      (lchars "Approach and").isPrefixOf text ||
      (lchars "Evaluation and").isPrefixOf text ||
      (lchars "Appendix").isPrefixOf text then
    some Level.H2
  else if (lchars "Timeline").isPrefixOf text || (lchars "Milestones").isPrefixOf text ||
      (lchars "Phase").isPrefixOf text || numberedDot text ||
      h3_vocab.any (fun p => substr p text) then
    some Level.H3
  else if (lchars "For each").isPrefixOf text && text.getLast? == some ':' then
    some Level.H4
  else if decide (font_stats.large_size ≤ size) then
    some Level.H1
  else if decide (font_stats.medium_size ≤ size) then
    some Level.H2
  else
    none

/-- A text run: the input record of the core, as produced by the
extraction layer at lines 157 to 162 of the source. -/
structure Run where
  text : List Char
  size : ℚ
  bold : Bool
  page : Nat
deriving DecidableEq, Repr

/-- Round-half-to-even of the integer fraction a over b (b positive),
the rounding used by the Python builtin round. -/
def rhe2 (a : ℤ) (b : ℤ) : ℤ :=
  let n := Int.fdiv a b
  let r := a - n * b
  if 2 * r < b then n
  else if b < 2 * r then n + 1
  else if n % 2 = 0 then n else n + 1

/-- Rounding of a rational to one decimal place, round(size, 1). -/
def round1 (q : ℚ) : ℚ := mkRat (rhe2 (10 * q.num) (q.den : ℤ)) 10

/-- Distinct elements in first-occurrence order, the key order of a
Python dict built by counting. -/
def firstDedup : List ℚ → List ℚ → List ℚ
  | [], _ => []
  | a :: as, seen => if a ∈ seen then firstDedup as seen else a :: firstDedup as (a :: seen)

/-- Sort order of analyze_fonts: descending frequency, ties broken by
descending size, the Python key (-count, -size). -/
def sizeKey (cnt : ℚ → ℕ) (a b : ℚ) : Prop :=
  cnt b < cnt a ∨ (cnt a = cnt b ∧ b ≤ a)

instance (cnt : ℚ → ℕ) : DecidableRel (sizeKey cnt) :=
  fun _ _ => inferInstanceAs (Decidable (_ ∨ _))

/-- Distinct rounded sizes of a run stream, sorted by the key of
analyze_fonts. -/
def sortedSizes (lines : List Run) : List ℚ :=
  let rounded := lines.map (fun l => round1 l.size)
  List.insertionSort (sizeKey (fun q => rounded.count q)) (firstDedup rounded [])

/-- Source function analyze_fonts: the font profile, with defaults 14,
12, 11 for missing tiers. -/
def analyze_fonts (lines : List Run) : FontStats :=
  let s := sortedSizes lines
  { large_size := s.getD 0 14
    medium_size := s.getD 1 12
    body_size := s.getD 2 11 }

/-- An outline entry: level, deduplication text, page. -/
structure Entry where
  level : Level
  text : List Char
  page : Nat
deriving DecidableEq, Repr

/-- The outline: a title and the entries in scan order. -/
structure Outline where
  title : List Char
  outline : List Entry
deriving DecidableEq, Repr

/-- Skip condition of the scan loop: already seen, too short, body
text, or not structural. -/
def skips (seen : List (List Char)) (t : List Char) : Prop :=
  t ∈ seen ∨ t.length < 4 ∨ is_body_text t = true ∨ is_structural_heading t = false

instance (seen : List (List Char)) (t : List Char) : Decidable (skips seen t) :=
  inferInstanceAs (Decidable (_ ∨ _ ∨ _ ∨ _))

/-- The scan loop of extract_outline (lines 179 to 194 of the source):
one pass over the runs with the accumulated entry list and seen set.
The pair holds the produced entries and the final seen set. -/
def scanOutline (font_stats : FontStats) : List Run → List (List Char) → List Entry × List (List Char)
  | [], seen => ([], seen)
  | line :: rest, seen =>
    if skips seen (clean line.text) then
      scanOutline font_stats rest seen
    else
      match get_heading_level (clean line.text) line.size font_stats with
      | some lvl =>
        let p := scanOutline font_stats rest (clean line.text :: seen)
        (⟨lvl, clean line.text, line.page⟩ :: p.1, p.2)
      | none => scanOutline font_stats rest seen

/-- Source function extract_outline, restricted to the classification
core (lines 166 to 199): font profile, title from the first three
page-1 runs at or above the medium size that are not body text, then
the scan. -/
def extract_outline (all_lines : List Run) : Outline :=
  let font_stats := analyze_fonts all_lines
  let page1_large :=
    (all_lines.filter (fun l =>
      l.page == 1 && decide (font_stats.medium_size ≤ l.size) && !is_body_text l.text)).take 3
  let title := clean (joinSpace (page1_large.map (fun l => l.text)))
  { title := if title = [] then lchars "Untitled" else title
    outline := (scanOutline font_stats all_lines []).1 }

/-- First-match-wins evaluation of an ordered rule list, the shape in
which the spec describes level assignment. -/
def firstMatch : List (Bool × Level) → Option Level
  | [] => none
  | (b, l) :: rest => if b then some l else firstMatch rest

/-- Level assignment as claim C2 words it: the H3 rule uses the
numbered-section pattern of stage 2 and the stage-2 principle/service
vocabulary (plus the phrase What could).  Written from the claim, to
be compared with get_heading_level. -/
def levelClaimC2 (t : List Char) (size : ℚ) (fs : FontStats) : Option Level :=
  let text := stripWs t
  firstMatch
    [(decide (fs.large_size ≤ size) &&
        (substr (lchars "Digital Library") text || substr (lchars "Critical Component") text),
      Level.H1),
     (text == lchars "Summary" || text == lchars "Background" ||
        (lchars "The Business Plan").isPrefixOf text ||
        (lchars "Approach and").isPrefixOf text ||
        (lchars "Evaluation and").isPrefixOf text ||
        (lchars "Appendix").isPrefixOf text,
      Level.H2),
     ((lchars "Timeline").isPrefixOf text || (lchars "Milestones").isPrefixOf text ||
        (lchars "Phase").isPrefixOf text || numberedSection text ||
        principle_patterns.any (fun p => substr p text) || substr (lchars "What could") text,
      Level.H3),
     ((lchars "For each").isPrefixOf text && text.getLast? == some ':', Level.H4),
     (decide (fs.large_size ≤ size), Level.H1),
     (decide (fs.medium_size ≤ size), Level.H2)]

/-- Level assignment as the amended claim words it: identical to the
claim except that the H3 rule matches digits followed by a period and
the truncated vocabulary actually used by the code. -/
def levelAmendedC2 (t : List Char) (size : ℚ) (fs : FontStats) : Option Level :=
  let text := stripWs t
  firstMatch
    [(decide (fs.large_size ≤ size) &&
        (substr (lchars "Digital Library") text || substr (lchars "Critical Component") text),
      Level.H1),
     (text == lchars "Summary" || text == lchars "Background" ||
        (lchars "The Business Plan").isPrefixOf text ||
        (lchars "Approach and").isPrefixOf text ||
        (lchars "Evaluation and").isPrefixOf text ||
        (lchars "Appendix").isPrefixOf text,
      Level.H2),
     ((lchars "Timeline").isPrefixOf text || (lchars "Milestones").isPrefixOf text ||
        (lchars "Phase").isPrefixOf text || numberedDot text ||
        h3_vocab.any (fun p => substr p text),
      Level.H3),
     ((lchars "For each").isPrefixOf text && text.getLast? == some ':', Level.H4),
     (decide (fs.large_size ≤ size), Level.H1),
     (decide (fs.medium_size ≤ size), Level.H2)]

/-- A word: nonempty and free of whitespace. -/
abbrev GoodWord (w : List Char) : Prop := w ≠ [] ∧ ∀ c ∈ w, isWs c = false

/-- Normalized nonempty text as the data model defines it for TextRun:
whitespace collapsed and trimmed, never empty, hence a single-space
join of a nonempty list of words. -/
def Normalized (t : List Char) : Prop :=
  ∃ ws : List (List Char), ws ≠ [] ∧ (∀ w ∈ ws, GoodWord w) ∧ t = joinSpace ws

/-- A run passes every per-run gate of the scan apart from the seen
check: length at least 4, not body text, structural, and assigned a
level. -/
def qualifiesB (fs : FontStats) (l : Run) : Bool :=
  decide (4 ≤ (clean l.text).length) && !is_body_text (clean l.text) &&
    is_structural_heading (clean l.text) &&
    (get_heading_level (clean l.text) l.size fs).isSome

/-- Concatenation of word lists. -/
def catWords : List (List (List Char)) → List (List Char)
  | [] => []
  | ws :: rest => ws ++ catWords rest

/-- A run with the bold flag cleared. -/
def deBold (l : Run) : Run := ⟨l.text, l.size, false, l.page⟩

theorem scanOutline_nil (fs : FontStats) (seen : List (List Char)) :
    scanOutline fs [] seen = ([], seen) := rfl

theorem scanOutline_skip {fs : FontStats} {l : Run} {rest : List Run} {seen : List (List Char)}
    (h : skips seen (clean l.text)) :
    scanOutline fs (l :: rest) seen = scanOutline fs rest seen := by
  simp [scanOutline, h]

theorem scanOutline_none {fs : FontStats} {l : Run} {rest : List Run} {seen : List (List Char)}
    (h : ¬ skips seen (clean l.text))
    (hl : get_heading_level (clean l.text) l.size fs = none) :
    scanOutline fs (l :: rest) seen = scanOutline fs rest seen := by
  simp [scanOutline, h, hl]

theorem scanOutline_some {fs : FontStats} {l : Run} {rest : List Run} {seen : List (List Char)}
    {lvl : Level} (h : ¬ skips seen (clean l.text))
    (hl : get_heading_level (clean l.text) l.size fs = some lvl) :
    scanOutline fs (l :: rest) seen =
      (⟨lvl, clean l.text, l.page⟩ :: (scanOutline fs rest (clean l.text :: seen)).1,
       (scanOutline fs rest (clean l.text :: seen)).2) := by
  simp [scanOutline, h, hl]

theorem not_skips {seen : List (List Char)} {t : List Char} (h : ¬ skips seen t) :
    t ∉ seen ∧ 4 ≤ t.length ∧ is_body_text t = false ∧ is_structural_heading t = true := by
  unfold skips at h
  push_neg at h
  obtain ⟨h1, h2, h3, h4⟩ := h
  refine ⟨h1, by omega, ?_, ?_⟩
  · cases hb : is_body_text t
    · rfl
    · exact absurd hb h3
  · cases hb : is_structural_heading t
    · exact absurd hb h4
    · rfl

theorem qualifiesB_components {fs : FontStats} {l : Run} (hq : qualifiesB fs l = true) :
    4 ≤ (clean l.text).length ∧ is_body_text (clean l.text) = false ∧
      is_structural_heading (clean l.text) = true ∧
      (get_heading_level (clean l.text) l.size fs).isSome = true := by
  simp only [qualifiesB, Bool.and_eq_true, decide_eq_true_eq, Bool.not_eq_true'] at hq
  exact ⟨hq.1.1.1, hq.1.1.2, hq.1.2, hq.2⟩

theorem qualifiesB_of_emit {fs : FontStats} {l : Run} {seen : List (List Char)}
    (h : ¬ skips seen (clean l.text)) {lvl : Level}
    (hl : get_heading_level (clean l.text) l.size fs = some lvl) : qualifiesB fs l = true := by
  obtain ⟨-, h2, h3, h4⟩ := not_skips h
  simp [qualifiesB, h2, h3, h4, hl]

theorem skips_mem_of_qualifies {fs : FontStats} {l : Run} {seen : List (List Char)}
    (hs : skips seen (clean l.text)) (hq : qualifiesB fs l = true) : clean l.text ∈ seen := by
  obtain ⟨q1, q2, q3, -⟩ := qualifiesB_components hq
  rcases hs with h | h | h | h
  · exact h
  · omega
  · rw [q2] at h; cases h
  · rw [q3] at h; cases h

theorem scan_entry_src (fs : FontStats) :
    ∀ (rs : List Run) (seen : List (List Char)), ∀ e ∈ (scanOutline fs rs seen).1,
      ∃ r ∈ rs, e.text = clean r.text ∧ e.page = r.page ∧ qualifiesB fs r = true := by
  intro rs
  induction rs with
  | nil => intro seen e he; simp [scanOutline_nil] at he
  | cons l rest ih =>
    intro seen e he
    by_cases hs : skips seen (clean l.text)
    · rw [scanOutline_skip hs] at he
      obtain ⟨r, hr, hh⟩ := ih seen e he
      exact ⟨r, List.mem_cons_of_mem _ hr, hh⟩
    · cases hl : get_heading_level (clean l.text) l.size fs with
      | none =>
        rw [scanOutline_none hs hl] at he
        obtain ⟨r, hr, hh⟩ := ih seen e he
        exact ⟨r, List.mem_cons_of_mem _ hr, hh⟩
      | some lvl =>
        rw [scanOutline_some hs hl] at he
        rcases List.mem_cons.mp he with rfl | he
        · exact ⟨l, List.mem_cons_self _ _, rfl, rfl, qualifiesB_of_emit hs hl⟩
        · obtain ⟨r, hr, hh⟩ := ih _ e he
          exact ⟨r, List.mem_cons_of_mem _ hr, hh⟩

theorem scan_nodup (fs : FontStats) :
    ∀ (rs : List Run) (seen : List (List Char)),
      (∀ e ∈ (scanOutline fs rs seen).1, e.text ∉ seen) ∧
      ((scanOutline fs rs seen).1.map (fun e => e.text)).Nodup := by
  intro rs
  induction rs with
  | nil => intro seen; simp [scanOutline_nil]
  | cons l rest ih =>
    intro seen
    by_cases hs : skips seen (clean l.text)
    · rw [scanOutline_skip hs]; exact ih seen
    · cases hl : get_heading_level (clean l.text) l.size fs with
      | none => rw [scanOutline_none hs hl]; exact ih seen
      | some lvl =>
        rw [scanOutline_some hs hl]
        obtain ⟨hnotin, -⟩ := not_skips hs
        obtain ⟨ih1, ih2⟩ := ih (clean l.text :: seen)
        constructor
        · intro e he
          rcases List.mem_cons.mp he with rfl | he
          · exact hnotin
          · intro hmem
            exact ih1 e he (List.mem_cons_of_mem _ hmem)
        · simp only [List.map_cons, List.nodup_cons]
          refine ⟨?_, ih2⟩
          intro hmem
          simp only [List.mem_map] at hmem
          obtain ⟨e, he, hte⟩ := hmem
          exact ih1 e he (hte ▸ List.mem_cons_self _ _)

/-- C1: stage-1 body-text rejection absolutely dominates stage-2
structural acceptance: a run whose normalized text is rejected as body
text contributes no entry to the outline, whatever else its text
matches. -/
theorem C1_body_text_rejection_absolute (lines : List Run) (r : Run) (hr : r ∈ lines)
    (hb : is_body_text (clean r.text) = true) :
    ∀ e ∈ (extract_outline lines).outline, e.text ≠ clean r.text := by
  intro e he heq
  have he2 : e ∈ (scanOutline (analyze_fonts lines) lines []).1 := by
    simpa [extract_outline] using he
  obtain ⟨r2, hr2, ht2, hp2, hq2⟩ := scan_entry_src _ _ _ e he2
  obtain ⟨-, hbody, -, -⟩ := qualifiesB_components hq2
  rw [← ht2, heq, hb] at hbody
  cases hbody

set_option maxRecDepth 8000 in
/-- Witness for C1: the concrete 150-character run starting with a
numbered-section prefix is body text and structural at once, and
yields no outline entry. -/
theorem C1_witness :
    is_body_text (clean (lchars "1. " ++ List.replicate 147 'A')) = true ∧
    is_structural_heading (clean (lchars "1. " ++ List.replicate 147 'A')) = true ∧
    (clean (lchars "1. " ++ List.replicate 147 'A')).length = 150 ∧
    ∀ e ∈ (extract_outline [⟨lchars "1. " ++ List.replicate 147 'A', 14, false, 1⟩]).outline,
      e.text ≠ clean (lchars "1. " ++ List.replicate 147 'A') :=
  ⟨by decide, by decide, by decide,
   C1_body_text_rejection_absolute
     [⟨lchars "1. " ++ List.replicate 147 'A', 14, false, 1⟩]
     ⟨lchars "1. " ++ List.replicate 147 'A', 14, false, 1⟩
     (List.mem_singleton.mpr rfl) (by decide)⟩

theorem scan_find (fs : FontStats) :
    ∀ (rs : List Run) (seen : List (List Char)), ∀ e ∈ (scanOutline fs rs seen).1,
      ∃ r, List.find? (fun l => qualifiesB fs l && decide (clean l.text = e.text)) rs = some r ∧
        e.page = r.page ∧ clean r.text = e.text := by
  intro rs
  induction rs with
  | nil => intro seen e he; simp [scanOutline_nil] at he
  | cons l rest ih =>
    intro seen e he
    by_cases hs : skips seen (clean l.text)
    · rw [scanOutline_skip hs] at he
      obtain ⟨r, hfind, hh⟩ := ih seen e he
      refine ⟨r, ?_, hh⟩
      rw [List.find?_cons_of_neg _ ?_, hfind]
      simp only [Bool.and_eq_true, decide_eq_true_eq, not_and]
      intro hq heq
      have hmem := skips_mem_of_qualifies hs hq
      rw [heq] at hmem
      exact absurd hmem ((scan_nodup fs rest seen).1 e he)
    · cases hl : get_heading_level (clean l.text) l.size fs with
      | none =>
        rw [scanOutline_none hs hl] at he
        obtain ⟨r, hfind, hh⟩ := ih seen e he
        refine ⟨r, ?_, hh⟩
        rw [List.find?_cons_of_neg _ ?_, hfind]
        simp only [Bool.and_eq_true, decide_eq_true_eq, not_and]
        intro hq heq
        obtain ⟨-, -, -, hsome⟩ := qualifiesB_components hq
        rw [hl] at hsome
        cases hsome
      | some lvl =>
        rw [scanOutline_some hs hl] at he
        rcases List.mem_cons.mp he with rfl | he
        · refine ⟨l, ?_, rfl, rfl⟩
          rw [List.find?_cons_of_pos]
          simp [qualifiesB_of_emit hs hl]
        · obtain ⟨r, hfind, hh⟩ := ih _ e he
          refine ⟨r, ?_, hh⟩
          rw [List.find?_cons_of_neg _ ?_, hfind]
          simp only [Bool.and_eq_true, decide_eq_true_eq, not_and]
          intro hq heq
          have hne : e.text ∉ clean l.text :: seen := (scan_nodup fs rest _).1 e he
          rw [heq] at hne
          exact hne (List.mem_cons_self _ _)

theorem scan_complete (fs : FontStats) :
    ∀ (rs : List Run) (seen : List (List Char)), ∀ r ∈ rs, qualifiesB fs r = true →
      clean r.text ∈ seen ∨ ∃ e ∈ (scanOutline fs rs seen).1, e.text = clean r.text := by
  intro rs
  induction rs with
  | nil => intro seen r hr; cases hr
  | cons l rest ih =>
    intro seen r hr hq
    rcases List.mem_cons.mp hr with rfl | hr
    · by_cases hs : skips seen (clean r.text)
      · exact Or.inl (skips_mem_of_qualifies hs hq)
      · cases hl : get_heading_level (clean r.text) r.size fs with
        | none =>
          obtain ⟨-, -, -, hsome⟩ := qualifiesB_components hq
          rw [hl] at hsome
          cases hsome
        | some lvl =>
          rw [scanOutline_some hs hl]
          exact Or.inr ⟨_, List.mem_cons_self _ _, rfl⟩
    · by_cases hs : skips seen (clean l.text)
      · rw [scanOutline_skip hs]; exact ih seen r hr hq
      · cases hl : get_heading_level (clean l.text) l.size fs with
        | none => rw [scanOutline_none hs hl]; exact ih seen r hr hq
        | some lvl =>
          rw [scanOutline_some hs hl]
          rcases ih (clean l.text :: seen) r hr hq with hmem | ⟨e, he, hte⟩
          · rcases List.mem_cons.mp hmem with heq | hmem
            · exact Or.inr ⟨⟨lvl, clean l.text, l.page⟩, List.mem_cons_self _ _, heq.symm⟩
            · exact Or.inl hmem
          · exact Or.inr ⟨e, List.mem_cons_of_mem _ he, hte⟩

/-- Input stream refuting C3 as stated: the text Road Map to
Prosperity is structural and occurs on pages 1 and 2, yet the sole
entry carries page 2, because the first occurrence is too small to
receive a level and therefore never enters the seen set. -/
def exC3 : List Run :=
  [⟨lchars "plain filler line", 12, false, 1⟩,
   ⟨lchars "another filler line", 12, false, 1⟩,
   ⟨lchars "Road Map to Prosperity", 8, false, 1⟩,
   ⟨lchars "Road Map to Prosperity", 20, false, 2⟩]

/-- Counterexample to C3: a structural text occurs at pages 1 and 2 of
the stream exC3, the outline contains exactly one entry with that
text, but its page is 2, not the page of the first document-order
occurrence. -/
theorem C3_counterexample :
    is_structural_heading (clean (lchars "Road Map to Prosperity")) = true ∧
    (⟨lchars "Road Map to Prosperity", 8, false, 1⟩ : Run) ∈ exC3 ∧
    (⟨lchars "Road Map to Prosperity", 20, false, 2⟩ : Run) ∈ exC3 ∧
    (extract_outline exC3).outline = [⟨Level.H1, lchars "Road Map to Prosperity", 2⟩] ∧
    ∀ e ∈ (extract_outline exC3).outline, e.page ≠ 1 := by
  refine ⟨by decide, by decide, by decide, by decide, by decide⟩

/-- C3 amended: entry texts are unique; each entry takes its page from
the first document-order run with that normalized text that passes the
length, body-text and structural gates and is assigned a level; and
whenever some run passes all those gates, an entry with its text is
produced. -/
theorem C3_dedup_amended (lines : List Run) :
    (((extract_outline lines).outline).map (fun e => e.text)).Nodup ∧
    (∀ e ∈ (extract_outline lines).outline,
      ∃ r, List.find? (fun l => qualifiesB (analyze_fonts lines) l &&
              decide (clean l.text = e.text)) lines = some r ∧
        e.page = r.page ∧ clean r.text = e.text) ∧
    (∀ r ∈ lines, qualifiesB (analyze_fonts lines) r = true →
      ∃ e ∈ (extract_outline lines).outline, e.text = clean r.text) := by
  have houtline : (extract_outline lines).outline =
      (scanOutline (analyze_fonts lines) lines []).1 := rfl
  refine ⟨?_, ?_, ?_⟩
  · rw [houtline]; exact (scan_nodup _ lines []).2
  · rw [houtline]; exact scan_find _ lines []
  · intro r hr hq
    rw [houtline]
    rcases scan_complete _ lines [] r hr hq with hmem | h
    · cases hmem
    · exact h

/-- Witness for C3: the amended statement instantiated at exC3. -/
theorem C3_witness :
    (((extract_outline exC3).outline).map (fun e => e.text)).Nodup ∧
    (∀ e ∈ (extract_outline exC3).outline,
      ∃ r, List.find? (fun l => qualifiesB (analyze_fonts exC3) l &&
              decide (clean l.text = e.text)) exC3 = some r ∧
        e.page = r.page ∧ clean r.text = e.text) ∧
    (∀ r ∈ exC3, qualifiesB (analyze_fonts exC3) r = true →
      ∃ e ∈ (extract_outline exC3).outline, e.text = clean r.text) :=
  C3_dedup_amended exC3

/-- Input stream for the existential part of C9: the structural text
receives no level at its first, small occurrence and therefore still
produces an entry at its second occurrence on page 3. -/
def exC9 : List Run :=
  [⟨lchars "some plain paragraph", 12, false, 1⟩,
   ⟨lchars "more plain paragraph", 12, false, 1⟩,
   ⟨lchars "Ontario Digital Library Overview", 8, false, 1⟩,
   ⟨lchars "Ontario Digital Library Overview", 20, false, 3⟩]

/-- C9: the seen set equals the texts of the entries emitted so far (a
text is recorded only when an entry is appended), and consequently a
structural run that receives no level does not suppress a later run
with identical text, which produces the entry at its own later page. -/
theorem C9_seen_set_invariant :
    (∀ (fs : FontStats) (rs : List Run) (seen : List (List Char)),
      (scanOutline fs rs seen).2 =
        ((scanOutline fs rs seen).1.map (fun e => e.text)).reverse ++ seen) ∧
    (is_structural_heading (clean (lchars "Ontario Digital Library Overview")) = true ∧
     get_heading_level (clean (lchars "Ontario Digital Library Overview")) 8
        (analyze_fonts exC9) = none ∧
     (extract_outline exC9).outline =
        [⟨Level.H1, lchars "Ontario Digital Library Overview", 3⟩]) := by
  constructor
  · intro fs rs
    induction rs with
    | nil => intro seen; simp [scanOutline_nil]
    | cons l rest ih =>
      intro seen
      by_cases hs : skips seen (clean l.text)
      · rw [scanOutline_skip hs]; exact ih seen
      · cases hl : get_heading_level (clean l.text) l.size fs with
        | none => rw [scanOutline_none hs hl]; exact ih seen
        | some lvl =>
          rw [scanOutline_some hs hl, ih (clean l.text :: seen)]
          simp
  · exact ⟨by decide, by decide, by decide⟩

theorem scan_pages (fs : FontStats) :
    ∀ (rs : List Run) (seen : List (List Char)),
      (rs.map (fun l => l.page)).Pairwise (· ≤ ·) →
      ((scanOutline fs rs seen).1.map (fun e => e.page)).Pairwise (· ≤ ·) := by
  intro rs
  induction rs with
  | nil => intro seen h; simp [scanOutline_nil]
  | cons l rest ih =>
    intro seen h
    rw [List.map_cons, List.pairwise_cons] at h
    obtain ⟨hhead, htail⟩ := h
    by_cases hs : skips seen (clean l.text)
    · rw [scanOutline_skip hs]; exact ih seen htail
    · cases hl : get_heading_level (clean l.text) l.size fs with
      | none => rw [scanOutline_none hs hl]; exact ih seen htail
      | some lvl =>
        rw [scanOutline_some hs hl]
        simp only [List.map_cons, List.pairwise_cons]
        refine ⟨?_, ih _ htail⟩
        intro q hq
        simp only [List.mem_map] at hq
        obtain ⟨e, he, hpe⟩ := hq
        obtain ⟨r, hr, -, hpage, -⟩ := scan_entry_src fs rest _ e he
        subst hpe
        rw [hpage]
        exact hhead r.page (List.mem_map_of_mem _ hr)

/-- C7: over a page-ordered run stream, the pages of consecutive
outline entries are non-decreasing, because entries are appended in
scan order with the page copied from the originating run. -/
theorem C7_page_monotonic (lines : List Run)
    (h : (lines.map (fun l => l.page)).Pairwise (· ≤ ·)) :
    (((extract_outline lines).outline).map (fun e => e.page)).Pairwise (· ≤ ·) :=
  scan_pages (analyze_fonts lines) lines [] h

/-- Witness for C7: a concrete page-ordered stream. -/
theorem C7_witness :
    (([⟨lchars "Summary", 14, false, 1⟩, ⟨lchars "Background", 14, false, 2⟩] :
        List Run).map (fun l => l.page)).Pairwise (· ≤ ·) ∧
    (((extract_outline
        [⟨lchars "Summary", 14, false, 1⟩, ⟨lchars "Background", 14, false, 2⟩]).outline).map
      (fun e => e.page)).Pairwise (· ≤ ·) :=
  ⟨by decide, C7_page_monotonic _ (by decide)⟩

/-- Counterexample to C2: the text For each Provincial office: is
accepted as structural and not body text; C2 assigns it H4 (the
stage-2 vocabulary contains Provincial Purchasing, not Provincial, and
no other H3 rule fires), but the code assigns H3 because its H3
vocabulary contains the truncated term Provincial. -/
theorem C2_counterexample :
    is_structural_heading (lchars "For each Provincial office:") = true ∧
    is_body_text (lchars "For each Provincial office:") = false ∧
    get_heading_level (lchars "For each Provincial office:") 10 ⟨14, 12, 11⟩ = some Level.H3 ∧
    levelClaimC2 (lchars "For each Provincial office:") 10 ⟨14, 12, 11⟩ = some Level.H4 := by
  refine ⟨by decide, by decide, by decide, by decide⟩

/-- C2 amended: for every structural run, the assigned level follows
the claimed first-match-wins precedence, with the H3 rule as the code
has it (digits followed by a period, and the truncated vocabulary
Equitable access, Shared decision, Shared governance, Shared funding,
Local points, Access:, Guidance, Training:, Provincial, Technological,
What could). -/
theorem C2_level_precedence_amended (t : List Char) (size : ℚ) (fs : FontStats)
    (h : is_structural_heading t = true) :
    get_heading_level t size fs = levelAmendedC2 t size fs := by
  simp only [get_heading_level, levelAmendedC2, firstMatch]

/-- Witness for C2: the amended statement at the concrete structural
run Summary with a small font size. -/
theorem C2_witness :
    is_structural_heading (lchars "Summary") = true ∧
    get_heading_level (lchars "Summary") 9 ⟨14, 12, 11⟩ =
      levelAmendedC2 (lchars "Summary") 9 ⟨14, 12, 11⟩ :=
  ⟨by decide, C2_level_precedence_amended _ _ _ (by decide)⟩

theorem sizeKey_total (cnt : ℚ → ℕ) : ∀ a b : ℚ, sizeKey cnt a b ∨ sizeKey cnt b a := by
  intro a b
  unfold sizeKey
  rcases lt_trichotomy (cnt a) (cnt b) with h | h | h
  · exact Or.inr (Or.inl h)
  · rcases le_total b a with hle | hle
    · exact Or.inl (Or.inr ⟨h, hle⟩)
    · exact Or.inr (Or.inr ⟨h.symm, hle⟩)
  · exact Or.inl (Or.inl h)

theorem sizeKey_trans (cnt : ℚ → ℕ) :
    ∀ a b c : ℚ, sizeKey cnt a b → sizeKey cnt b c → sizeKey cnt a c := by
  intro a b c hab hbc
  unfold sizeKey at hab hbc ⊢
  rcases hab with h1 | ⟨h1, h2⟩ <;> rcases hbc with h3 | ⟨h3, h4⟩
  · exact Or.inl (by omega)
  · exact Or.inl (by omega)
  · exact Or.inl (by omega)
  · exact Or.inr ⟨by omega, h4.trans h2⟩

/-- C4: the sorted size list of analyze_fonts is a permutation of the
distinct rounded sizes, it is sorted by descending frequency with ties
broken by descending size, the profile takes its first three elements
with defaults 14, 12, 11 for missing tiers, and the empty stream gets
the all-default profile. -/
theorem C4_font_profile (lines : List Run) :
    (sortedSizes lines).Perm (firstDedup (lines.map (fun l => round1 l.size)) []) ∧
    (sortedSizes lines).Sorted
      (sizeKey (fun q => (lines.map (fun l => round1 l.size)).count q)) ∧
    analyze_fonts lines =
      ⟨(sortedSizes lines).getD 0 14, (sortedSizes lines).getD 1 12,
        (sortedSizes lines).getD 2 11⟩ ∧
    analyze_fonts [] = ⟨14, 12, 11⟩ := by
  refine ⟨List.perm_insertionSort _ _, ?_, rfl, rfl⟩
  haveI : IsTotal ℚ (sizeKey (fun q => (lines.map (fun l => round1 l.size)).count q)) :=
    ⟨sizeKey_total _⟩
  haveI : IsTrans ℚ (sizeKey (fun q => (lines.map (fun l => round1 l.size)).count q)) :=
    ⟨sizeKey_trans _⟩
  exact List.sorted_insertionSort _ _

theorem scanOutline_deBold (fs : FontStats) :
    ∀ (rs : List Run) (seen : List (List Char)),
      scanOutline fs (rs.map deBold) seen = scanOutline fs rs seen := by
  intro rs
  induction rs with
  | nil => intro seen; rfl
  | cons l rest ih =>
    intro seen
    show scanOutline fs (deBold l :: rest.map deBold) seen = _
    by_cases hs : skips seen (clean l.text)
    · rw [scanOutline_skip (l := deBold l) hs, scanOutline_skip hs, ih]
    · cases hl : get_heading_level (clean l.text) l.size fs with
      | none =>
        rw [scanOutline_none (l := deBold l) hs hl, scanOutline_none hs hl, ih]
      | some lvl =>
        rw [scanOutline_some (l := deBold l) hs hl, scanOutline_some hs hl, ih]
        rfl

theorem analyze_fonts_deBold (lines : List Run) :
    analyze_fonts (lines.map deBold) = analyze_fonts lines := by
  unfold analyze_fonts sortedSizes
  rw [List.map_map]
  rfl

theorem extract_outline_deBold (lines : List Run) :
    extract_outline (lines.map deBold) = extract_outline lines := by
  simp only [extract_outline, analyze_fonts_deBold, scanOutline_deBold, List.filter_map,
    ← List.map_take, List.map_map]
  rfl

/-- C6: the outline is insensitive to the bold flags: two run streams
identical except for boldness produce identical outlines, because no
rule of the core reads the bold field. -/
theorem C6_bold_noninterference (lines1 lines2 : List Run)
    (h : List.Forall₂ (fun a b => a.text = b.text ∧ a.size = b.size ∧ a.page = b.page)
      lines1 lines2) :
    extract_outline lines1 = extract_outline lines2 := by
  have hm : lines1.map deBold = lines2.map deBold := by
    induction h with
    | nil => rfl
    | cons hab _ ih =>
      obtain ⟨h1, h2, h3⟩ := hab
      simp only [List.map_cons, ih, List.cons.injEq, and_true]
      simp [deBold, h1, h2, h3]
  rw [← extract_outline_deBold lines1, ← extract_outline_deBold lines2, hm]

/-- Witness for C6: two singleton streams differing only in the bold
flag yield the same outline. -/
theorem C6_witness :
    extract_outline [⟨lchars "Summary", 14, false, 1⟩] =
      extract_outline [⟨lchars "Summary", 14, true, 1⟩] :=
  C6_bold_noninterference _ _ (List.Forall₂.cons ⟨rfl, rfl, rfl⟩ List.Forall₂.nil)

theorem scan_all_skipped (fs : FontStats) :
    ∀ (rs : List Run) (seen : List (List Char)),
      (∀ l ∈ rs, is_structural_heading (clean l.text) = false) →
      (scanOutline fs rs seen).1 = [] := by
  intro rs
  induction rs with
  | nil => intro seen _; rfl
  | cons l rest ih =>
    intro seen h
    have hs : skips seen (clean l.text) :=
      Or.inr (Or.inr (Or.inr (h l (List.mem_cons_self _ _))))
    rw [scanOutline_skip hs]
    exact ih seen (fun r hr => h r (List.mem_cons_of_mem _ hr))

/-- C8: degenerate inputs are not errors: the empty stream yields the
default outline, absence of title candidates yields the default title,
and absence of structural runs yields empty entries. -/
theorem C8_degenerate_inputs :
    extract_outline [] = ⟨lchars "Untitled", []⟩ ∧
    (∀ lines : List Run,
      (∀ l ∈ lines, ¬ (l.page = 1 ∧ (analyze_fonts lines).medium_size ≤ l.size ∧
          is_body_text l.text = false)) →
      (extract_outline lines).title = lchars "Untitled") ∧
    (∀ lines : List Run, (∀ l ∈ lines, is_structural_heading (clean l.text) = false) →
      (extract_outline lines).outline = []) := by
  refine ⟨by decide, ?_, ?_⟩
  · intro lines hno
    have hfilter : lines.filter (fun l =>
        l.page == 1 && decide ((analyze_fonts lines).medium_size ≤ l.size) &&
          !is_body_text l.text) = [] := by
      rw [List.filter_eq_nil]
      intro l hl
      have hthis := hno l hl
      simp only [Bool.and_eq_true, beq_iff_eq, decide_eq_true_eq, Bool.not_eq_true',
        not_and] at hthis ⊢
      tauto
    simp [extract_outline, hfilter, joinSpace, clean, stripWs, collapse, List.dropWhile]
  · intro lines h
    exact scan_all_skipped (analyze_fonts lines) lines [] h

/-- Witness for C8: a single off-page-one, non-structural run. -/
theorem C8_witness :
    (∀ l ∈ ([⟨lchars "plain filler line", 5, false, 2⟩] : List Run),
      ¬ (l.page = 1 ∧
          (analyze_fonts [⟨lchars "plain filler line", 5, false, 2⟩]).medium_size ≤ l.size ∧
          is_body_text l.text = false)) ∧
    (extract_outline [⟨lchars "plain filler line", 5, false, 2⟩]).title = lchars "Untitled" ∧
    (∀ l ∈ ([⟨lchars "plain filler line", 5, false, 2⟩] : List Run),
      is_structural_heading (clean l.text) = false) ∧
    (extract_outline [⟨lchars "plain filler line", 5, false, 2⟩]).outline = [] :=
  ⟨by decide, C8_degenerate_inputs.2.1 _ (by decide), by decide,
    C8_degenerate_inputs.2.2 _ (by decide)⟩

/-- C10: title and outline entries are not mutually exclusive: on a
concrete stream a page-1 run both makes the whole title and yields an
outline entry with the same text. -/
theorem C10_title_outline_overlap :
    ∃ (lines : List Run) (l : Run), l ∈ lines ∧ l.page = 1 ∧
      (extract_outline lines).title = clean l.text ∧
      ∃ e ∈ (extract_outline lines).outline, e.text = clean l.text := by
  refine ⟨[⟨lchars "Critical Component", 14, false, 1⟩],
    ⟨lchars "Critical Component", 14, false, 1⟩, List.mem_singleton.mpr rfl, rfl, by decide, ?_⟩
  exact ⟨⟨Level.H1, lchars "Critical Component", 1⟩, by decide, by decide⟩

theorem collapse_cons_nonws {c : Char} {t : List Char} (h : isWs c = false) :
    collapse (c :: t) = c :: collapse t := by
  cases t with
  | nil => simp [collapse, h]
  | cons d tt => simp [collapse, h]

theorem collapse_cons_space {c : Char} {t : List Char} (h : isWs c = false) :
    collapse (' ' :: c :: t) = ' ' :: collapse (c :: t) := by
  show (if isWs ' ' && isWs c then collapse (c :: t)
      else (if isWs ' ' then ' ' else ' ') :: collapse (c :: t)) = ' ' :: collapse (c :: t)
  rw [h]
  simp

theorem collapse_append_word {w rest : List Char} (hw : ∀ c ∈ w, isWs c = false) :
    collapse (w ++ rest) = w ++ collapse rest := by
  induction w with
  | nil => simp
  | cons a w2 ih =>
    have ha : isWs a = false := hw a (List.mem_cons_self _ _)
    rw [List.cons_append, collapse_cons_nonws ha,
      ih (fun c hc => hw c (List.mem_cons_of_mem _ hc))]
    rfl

theorem joinSpace_cons_cons (w v : List Char) (ws : List (List Char)) :
    joinSpace (w :: v :: ws) = w ++ ' ' :: joinSpace (v :: ws) := rfl

theorem joinSpace_good_head {w : List Char} {ws : List (List Char)} (hw : GoodWord w) :
    ∃ c t, joinSpace (w :: ws) = c :: t ∧ isWs c = false := by
  obtain ⟨hne, hchars⟩ := hw
  cases w with
  | nil => exact absurd rfl hne
  | cons a w2 =>
    have ha : isWs a = false := hchars a (List.mem_cons_self _ _)
    cases ws with
    | nil => exact ⟨a, w2, rfl, ha⟩
    | cons v ws2 => exact ⟨a, w2 ++ ' ' :: joinSpace (v :: ws2), rfl, ha⟩

theorem joinSpace_good_rev_head :
    ∀ (ws : List (List Char)), ws ≠ [] → (∀ w ∈ ws, GoodWord w) →
      ∃ c t, (joinSpace ws).reverse = c :: t ∧ isWs c = false := by
  intro ws
  induction ws with
  | nil => intro hh; exact absurd rfl hh
  | cons w ws2 ih =>
    intro _ hgood
    cases ws2 with
    | nil =>
      obtain ⟨hne, hchars⟩ := hgood w (List.mem_cons_self _ _)
      cases hrev : w.reverse with
      | nil => exact absurd (List.reverse_eq_nil_iff.mp hrev) hne
      | cons c t =>
        refine ⟨c, t, hrev, hchars c ?_⟩
        exact List.mem_reverse.mp (hrev ▸ List.mem_cons_self c t)
    | cons v ws3 =>
      obtain ⟨c, t, hrev, hc⟩ :=
        ih (List.cons_ne_nil _ _) (fun x hx => hgood x (List.mem_cons_of_mem _ hx))
      refine ⟨c, t ++ ' ' :: w.reverse, ?_, hc⟩
      rw [joinSpace_cons_cons, List.reverse_append, List.reverse_cons, hrev]
      simp

theorem stripWs_eq {t : List Char} (h1 : ∃ c s, t = c :: s ∧ isWs c = false)
    (h2 : ∃ c s, t.reverse = c :: s ∧ isWs c = false) : stripWs t = t := by
  obtain ⟨c1, s1, he1, hc1⟩ := h1
  obtain ⟨c2, s2, he2, hc2⟩ := h2
  have e1 : t.dropWhile isWs = t := by
    rw [he1, List.dropWhile_cons, hc1]; simp
  have e2 : t.reverse.dropWhile isWs = t.reverse := by
    rw [he2, List.dropWhile_cons, hc2]; simp
  unfold stripWs
  rw [e1, e2, List.reverse_reverse]

theorem collapse_joinSpace :
    ∀ (ws : List (List Char)), (∀ w ∈ ws, GoodWord w) →
      collapse (joinSpace ws) = joinSpace ws := by
  intro ws
  induction ws with
  | nil => intro _; rfl
  | cons w ws2 ih =>
    intro hgood
    obtain ⟨hne, hchars⟩ := hgood w (List.mem_cons_self _ _)
    cases ws2 with
    | nil =>
      have hcw : collapse (w ++ []) = w ++ collapse [] := collapse_append_word hchars
      show collapse w = w
      simpa [collapse] using hcw
    | cons v ws3 =>
      have hgood2 : ∀ x ∈ v :: ws3, GoodWord x := fun x hx => hgood x (List.mem_cons_of_mem _ hx)
      obtain ⟨c, s, hhead, hc⟩ := joinSpace_good_head (hgood2 v (List.mem_cons_self _ _))
      rw [joinSpace_cons_cons, collapse_append_word hchars, hhead, collapse_cons_space hc,
        ← hhead, ih hgood2]

theorem clean_joinSpace {ws : List (List Char)} (hne : ws ≠ [])
    (hgood : ∀ w ∈ ws, GoodWord w) : clean (joinSpace ws) = joinSpace ws := by
  have h1 : ∃ c t, joinSpace ws = c :: t ∧ isWs c = false := by
    cases ws with
    | nil => exact absurd rfl hne
    | cons w ws2 => exact joinSpace_good_head (hgood w (List.mem_cons_self _ _))
  have h2 := joinSpace_good_rev_head ws hne hgood
  unfold clean
  rw [stripWs_eq h1 h2]
  exact collapse_joinSpace ws hgood

theorem joinSpace_good_ne_nil {ws : List (List Char)} (hne : ws ≠ [])
    (hgood : ∀ w ∈ ws, GoodWord w) : joinSpace ws ≠ [] := by
  cases ws with
  | nil => exact absurd rfl hne
  | cons w ws2 =>
    obtain ⟨c, t, he, -⟩ := joinSpace_good_head (hgood w (List.mem_cons_self _ _))
    rw [he]
    exact List.cons_ne_nil _ _

theorem Normalized.clean_eq {t : List Char} (h : Normalized t) : clean t = t := by
  obtain ⟨ws, hne, hgood, rfl⟩ := h
  exact clean_joinSpace hne hgood

theorem joinSpace_append :
    ∀ (ws vs : List (List Char)), ws ≠ [] → vs ≠ [] →
      joinSpace (ws ++ vs) = joinSpace ws ++ ' ' :: joinSpace vs := by
  intro ws
  induction ws with
  | nil => intro vs hh; exact absurd rfl hh
  | cons w ws2 ih =>
    intro vs _ hvs
    cases ws2 with
    | nil =>
      cases vs with
      | nil => exact absurd rfl hvs
      | cons v vs2 => rfl
    | cons w2 ws3 =>
      show joinSpace (w :: w2 :: (ws3 ++ vs)) = joinSpace (w :: w2 :: ws3) ++ ' ' :: joinSpace vs
      rw [joinSpace_cons_cons, joinSpace_cons_cons,
        show w2 :: (ws3 ++ vs) = (w2 :: ws3) ++ vs from rfl,
        ih vs (List.cons_ne_nil _ _) hvs]
      simp

theorem normalized_join :
    ∀ (ts : List (List Char)), ts ≠ [] → (∀ t ∈ ts, Normalized t) →
      ∃ ws, ws ≠ [] ∧ (∀ w ∈ ws, GoodWord w) ∧ joinSpace ts = joinSpace ws := by
  intro ts
  induction ts with
  | nil => intro hh; exact absurd rfl hh
  | cons t ts2 ih =>
    intro _ hnorm
    obtain ⟨ws1, hws1ne, hws1good, ht⟩ := hnorm t (List.mem_cons_self _ _)
    cases ts2 with
    | nil => exact ⟨ws1, hws1ne, hws1good, by simpa using ht⟩
    | cons t2 ts3 =>
      obtain ⟨ws2, hws2ne, hws2good, hrest⟩ :=
        ih (List.cons_ne_nil _ _) (fun x hx => hnorm x (List.mem_cons_of_mem _ hx))
      refine ⟨ws1 ++ ws2, fun hv => hws1ne (List.append_eq_nil.mp hv).1, ?_, ?_⟩
      · intro w hw
        rcases List.mem_append.mp hw with hx | hx
        · exact hws1good w hx
        · exact hws2good w hx
      · rw [joinSpace_cons_cons, ht, hrest, joinSpace_append ws1 ws2 hws1ne hws2ne]

/-- C5: over a stream of normalized nonempty run texts, the title is
the single-space join of the normalized texts of the first three
page-1 runs at or above the medium size that are not body text, and
Untitled when no such run exists; in particular a stream with no
page-1 run at or above the medium size is titled Untitled. -/
theorem C5_title_derivation (lines : List Run) (h : ∀ l ∈ lines, Normalized l.text) :
    ((extract_outline lines).title =
      if lines.filter (fun l => l.page == 1 &&
            decide ((analyze_fonts lines).medium_size ≤ l.size) && !is_body_text l.text) = []
      then lchars "Untitled"
      else joinSpace (((lines.filter (fun l => l.page == 1 &&
            decide ((analyze_fonts lines).medium_size ≤ l.size) &&
            !is_body_text l.text)).take 3).map (fun l => clean l.text))) ∧
    ((∀ l ∈ lines, l.page = 1 → ¬ (analyze_fonts lines).medium_size ≤ l.size) →
      (extract_outline lines).title = lchars "Untitled") := by
  set cands := lines.filter (fun l => l.page == 1 &&
      decide ((analyze_fonts lines).medium_size ≤ l.size) && !is_body_text l.text) with hcands
  have htitle : (extract_outline lines).title =
      if clean (joinSpace ((cands.take 3).map (fun l => l.text))) = [] then lchars "Untitled"
      else clean (joinSpace ((cands.take 3).map (fun l => l.text))) := rfl
  have hfirst : (extract_outline lines).title =
      if cands = [] then lchars "Untitled"
      else joinSpace ((cands.take 3).map (fun l => clean l.text)) := by
    by_cases hc : cands = []
    · rw [htitle, hc, if_pos rfl]
      simp [joinSpace, clean, stripWs, collapse, List.dropWhile]
    · obtain ⟨c, cs, hcc⟩ := List.exists_cons_of_ne_nil hc
      have hts_ne : ((cands.take 3).map (fun l => l.text)) ≠ [] := by
        rw [hcc]
        simp
      have hnorm : ∀ t ∈ (cands.take 3).map (fun l => l.text), Normalized t := by
        intro t ht
        simp only [List.mem_map] at ht
        obtain ⟨l, hl, rfl⟩ := ht
        have hl2 : l ∈ cands := List.mem_of_mem_take hl
        rw [hcands] at hl2
        exact h l (List.mem_filter.mp hl2).1
      obtain ⟨ws, hwsne, hwsgood, hjoin⟩ := normalized_join _ hts_ne hnorm
      have hclean : clean (joinSpace ((cands.take 3).map (fun l => l.text))) =
          joinSpace ((cands.take 3).map (fun l => l.text)) := by
        rw [hjoin]
        exact clean_joinSpace hwsne hwsgood
      have hne2 : joinSpace ((cands.take 3).map (fun l => l.text)) ≠ [] := by
        rw [hjoin]
        exact joinSpace_good_ne_nil hwsne hwsgood
      rw [htitle, hclean, if_neg hne2, if_neg hc]
      refine congrArg joinSpace (List.map_congr_left ?_)
      intro l hl
      have hl2 : l ∈ cands := List.mem_of_mem_take hl
      rw [hcands] at hl2
      exact ((h l (List.mem_filter.mp hl2).1).clean_eq).symm
  refine ⟨hfirst, ?_⟩
  intro hno
  have hc : cands = [] := by
    rw [hcands, List.filter_eq_nil]
    intro l hl hcontra
    simp only [Bool.and_eq_true, beq_iff_eq, decide_eq_true_eq] at hcontra
    exact hno l hl hcontra.1.1 hcontra.1.2
  rw [hfirst, if_pos hc]

/-- Witness for C5: a single page-1 run below the medium size, with a
normalized two-word text, yields the title Untitled. -/
theorem C5_witness :
    (∀ l ∈ ([⟨lchars "plain filler", 5, false, 1⟩] : List Run), Normalized l.text) ∧
    (∀ l ∈ ([⟨lchars "plain filler", 5, false, 1⟩] : List Run), l.page = 1 →
      ¬ (analyze_fonts [⟨lchars "plain filler", 5, false, 1⟩]).medium_size ≤ l.size) ∧
    (extract_outline [⟨lchars "plain filler", 5, false, 1⟩]).title = lchars "Untitled" := by
  have hn : ∀ l ∈ ([⟨lchars "plain filler", 5, false, 1⟩] : List Run), Normalized l.text := by
    intro l hl
    rw [List.mem_singleton] at hl
    subst hl
    exact ⟨[lchars "plain", lchars "filler"], by decide, by decide, by decide⟩
  exact ⟨hn, by decide, (C5_title_derivation _ hn).2 (by decide)⟩
